import Mathlib

/-!
# Verification of the ldbrest core components

A shallow embedding of the ldbrest server's core logic:

* byte-sequence keys/values with Go's `bytes.Compare` ordering,
* the store modelled as an association list sorted strictly by key,
* `applyBatch` (atomic batch application, `batch.go`),
* `makeSnap` / `dumpBatch` (chunked snapshot export, `snap.go`),
* `iterate` / `iterateUntil` / `iterateN` (`libldbrest/iterate.go`),
* the `GET /iterate` handler of `InitRouter` including its
  `strconv.Atoi` parse of the `max` query parameter.
-/

namespace Ldbrest

/-- Keys and values are opaque byte sequences. -/
abbrev Bytes := List Nat

/-- Go's `bytes.Compare`: lexicographic byte-wise three-way comparison,
with a proper prefix comparing less than its extensions. -/
def byteCompare : Bytes → Bytes → Ordering
  | [], [] => .eq
  | [], _ :: _ => .lt
  | _ :: _, [] => .gt
  | a :: as, b :: bs =>
    if a < b then .lt else if b < a then .gt else byteCompare as bs

/-- A record is a (key, value) pair. -/
abbrev Rec := Bytes × Bytes

/-- The store: an association list; the leveldb invariant is that it is
strictly sorted by key in `byteCompare` order. -/
abbrev Store := List Rec

/-- The leveldb key-order invariant on a store. -/
def SortedStore (s : Store) : Prop :=
  List.Pairwise (fun a b : Rec => byteCompare a.1 b.1 = Ordering.lt) s

instance (s : Store) : Decidable (SortedStore s) :=
  inferInstanceAs (Decidable (List.Pairwise _ s))

/-- Point put: sorted insert, replacing the value when the key exists. -/
def storePut : Store → Bytes → Bytes → Store
  | [], k, v => [(k, v)]
  | (k', v') :: rest, k, v =>
    match byteCompare k k' with
    | .lt => (k, v) :: (k', v') :: rest
    | .eq => (k, v) :: rest
    | .gt => (k', v') :: storePut rest k v

/-- Point delete: removes the record with the given key, if present. -/
def storeDel (s : Store) (k : Bytes) : Store :=
  s.filter (fun r => !(byteCompare r.1 k == Ordering.eq))

/-! ## Batch application (`batch.go`, `applyBatch`) -/

/-- One element of the JSON `ops` list: `{"op", "key", "value"}`.
The kind tag is an arbitrary string, compared against `"put"` / `"delete"`. -/
structure BatchOp where
  op : String
  key : Bytes
  value : Bytes
  deriving DecidableEq

/-- One staged entry of a levigo `WriteBatch`. -/
inductive WBEntry
  | put (k v : Bytes)
  | del (k : Bytes)

/-- The validation/staging loop of `applyBatch`: stage each op into the
write-batch, failing (`errBadBatch`) at the first unrecognized kind. -/
def buildBatch : List BatchOp → List WBEntry → Option (List WBEntry)
  | [], acc => some acc
  | o :: rest, acc =>
    if o.op = "put" then buildBatch rest (acc ++ [.put o.key o.value])
    else if o.op = "delete" then buildBatch rest (acc ++ [.del o.key])
    else none

/-- `db.Write`: atomically apply a staged write-batch, in order. -/
def dbWrite (s : Store) (wb : List WBEntry) : Store :=
  wb.foldl
    (fun st e =>
      match e with
      | .put k v => storePut st k v
      | .del k => storeDel st k) s

/-- `applyBatch`: stage all ops into a write-batch; an unrecognized op kind
aborts before anything is written (`false` = `errBadBatch`), otherwise the
whole batch is committed with one `db.Write`. -/
def applyBatch (s : Store) (ops : List BatchOp) : Store × Bool :=
  match buildBatch ops [] with
  | none => (s, false)
  | some wb => (dbWrite s wb, true)

/-! ## Snapshot export (`snap.go`, `makeSnap` / `dumpBatch`)

The observable world: the source store plus the (possibly absent) store at
the destination path. Commit failures of the destination engine are
nondeterministic; they are modelled by an oracle `commitFails` saying
whether the n-th `dumpBatch` write fails. -/

structure SnapWorld where
  src : Store
  dest : Option Store
  deriving DecidableEq

/-- Apply a snapshot write-batch (a chunk of puts) to the destination. -/
def putAll (dest : Store) (wb : List Rec) : Store :=
  wb.foldl (fun st r => storePut st r.1 r.2) dest

/-- The accumulation loop of `makeSnap`: walk the remaining source records,
stage each into the current write-batch `wb`, commit every 1000 records
(`i % 1000 == 0` after increment) via `dumpBatch`, and after the loop commit
the final partial batch unless `i % 1000 == 0`.  `ci` counts committed
batches (the oracle's index); `none` models `goto fail`. -/
def snapLoop (commitFails : Nat → Bool) :
    List Rec → Nat → Nat → List Rec → Store → Option Store
  | [], i, ci, wb, dest =>
    if i % 1000 ≠ 0 then
      if commitFails ci then none else some (putAll dest wb)
    else some dest
  | r :: rest, i, ci, wb, dest =>
    let wb' := wb ++ [r]
    let i' := i + 1
    if i' % 1000 = 0 then
      if commitFails ci then none
      else snapLoop commitFails rest i' (ci + 1) [] (putAll dest wb')
    else snapLoop commitFails rest i' ci wb' dest

/-- `makeSnap`: open a brand-new store at the destination (error if one
already exists, leaving the world untouched); copy every record of the
source's snapshot view in ascending order in 1000-record batches; on any
commit failure destroy the partial destination store (`goto fail` +
`DestroyDatabase`).  Returns the resulting world and a success flag. -/
def makeSnap (w : SnapWorld) (commitFails : Nat → Bool) : SnapWorld × Bool :=
  match w.dest with
  | some _ => (w, false)
  | none =>
    match snapLoop commitFails w.src 0 0 [] [] with
    | none => (⟨w.src, none⟩, false)
    | some d => (⟨w.src, some d⟩, true)

/-! ## Range iteration (`libldbrest/iterate.go`)

The levigo cursor over a sorted store is a position index (`Option Nat`,
`none` = invalid).  `iterate` is split into the cursor-positioning logic
(`cursorPos`), the raw record sequence the positioned cursor would visit
(`cursorSeq`), and the first-record suppression (`scanSeq`); its callers
`iterateUntil` and `iterateN` run their handler loops over that sequence. -/

/-- `Iterator.Seek`: index of the first stored key `≥ k`
(`s.length` if there is none, i.e. the iterator goes invalid). -/
def seekIdx : Store → Bytes → Nat
  | [], _ => 0
  | r :: rest, k =>
    if byteCompare r.1 k = .lt then seekIdx rest k + 1 else 0

/-- The key at a cursor position (junk default past the end). -/
def keyAt (s : Store) (i : Nat) : Bytes := (s.getD i ([], [])).1

/-- The cursor position after the seek phase of `iterate`:
empty `start` seeks to the first (forward) or last (backward) record,
otherwise `Seek(start)`; going backwards, an invalid seek is corrected to
the last record, and an exclusive start positioned on a key other than
`start` steps one position back (invalid if already at the first record). -/
def cursorPos (s : Store) (start : Bytes) (include_start backwards : Bool) :
    Option Nat :=
  let p0 : Option Nat :=
    if start = [] then
      if s.isEmpty then none
      else if backwards then some (s.length - 1) else some 0
    else
      let i := seekIdx s start
      if i = s.length then none else some i
  if backwards then
    match p0 with
    | none => if s.isEmpty then none else some (s.length - 1)
    | some i =>
      if include_start = false ∧ keyAt s i ≠ start then
        if i = 0 then none else some (i - 1)
      else some i
  else p0

/-- The records an `iterate` cursor visits, in visit order. -/
def cursorSeq (s : Store) (start : Bytes) (include_start backwards : Bool) :
    List Rec :=
  match cursorPos s start include_start backwards with
  | none => []
  | some i => if backwards then (s.take (i + 1)).reverse else s.drop i

/-- The records `iterate` hands to its callback: the cursor sequence with
the very first record suppressed when `start` is exclusive and the record's
key equals `start`. -/
def scanSeq (s : Store) (start : Bytes) (include_start backwards : Bool) :
    List Rec :=
  match cursorSeq s start include_start backwards with
  | [] => []
  | r :: rest => if include_start = false ∧ r.1 = start then rest else r :: rest

/-- `iterateUntil`'s `oob` classifier: for a candidate key, returns
(valid-now, keep-scanning) relative to the `end` bound. -/
def oob (e : Bytes) (include_end backwards : Bool) (key : Bytes) : Bool × Bool :=
  match byteCompare key e with
  | .eq => (include_end, false)
  | .lt => if backwards then (false, false) else (true, true)
  | .gt => if backwards then (true, true) else (false, false)

/-- The callback loop of `iterateUntil` over the visited records: stop
before emitting once the count cap is reached (recording in `more` whether
the next candidate was still in range of `end`); stop silently on an
out-of-range key; emit an in-range key and stop after it when it is the
inclusive `end`. Returns (`more`, emitted records). -/
def untilLoop (e : Bytes) (maxc : Int) (include_end backwards : Bool) :
    List Rec → Int → Bool × List Rec
  | [], _ => (false, [])
  | (k, v) :: rest, i =>
    if i ≥ maxc then ((oob e include_end backwards k).1, [])
    else if (oob e include_end backwards k).1 = false then (false, [])
    else if (oob e include_end backwards k).2 = false then (false, [(k, v)])
    else
      let p := untilLoop e maxc include_end backwards rest (i + 1)
      (p.1, (k, v) :: p.2)

/-- `iterateUntil`: bounded scan between `start` and `end` with a count
cap; returns the `more` flag and the emitted records. -/
def iterateUntil (s : Store) (start e : Bytes) (maxc : Int)
    (include_start include_end backwards : Bool) : Bool × List Rec :=
  untilLoop e maxc include_end backwards (scanSeq s start include_start backwards) 0

/-- The callback loop of `iterateN`: emit until the count cap. -/
def nLoop (maxc : Int) : List Rec → Int → List Rec
  | [], _ => []
  | r :: rest, i => if i ≥ maxc then [] else r :: nLoop maxc rest (i + 1)

/-- `iterateN`: open-ended scan emitting at most `maxc` records. -/
def iterateN (s : Store) (start : Bytes) (maxc : Int)
    (include_start backwards : Bool) : List Rec :=
  nLoop maxc (scanSeq s start include_start backwards) 0

/-! ## The `GET /iterate` handler (`InitRouter`) -/

/-- Decimal digit value, if the character is a digit. -/
def digitVal (c : Char) : Option Nat :=
  if '0' ≤ c ∧ c ≤ '9' then some (c.toNat - '0'.toNat) else none

/-- Accumulate a non-negative decimal numeral; fails on any non-digit. -/
def parseDigits : List Char → Nat → Option Nat
  | [], acc => some acc
  | c :: rest, acc =>
    match digitVal c with
    | some d => parseDigits rest (acc * 10 + d)
    | none => none

/-- 64-bit `int` range check of `strconv.ParseInt` (bitSize 0 = 64). -/
def intRange (v : Int) : Option Int :=
  if v < -(2 ^ 63) ∨ v ≥ 2 ^ 63 then none else some v

/-- `strconv.Atoi`: optional sign, one or more decimal digits, 64-bit
range; anything else is a parse error (`none`). -/
def atoi (s : String) : Option Int :=
  match s.toList with
  | [] => none
  | '+' :: rest =>
    if rest = [] then none
    else (parseDigits rest 0).bind (fun n => intRange (Int.ofNat n))
  | '-' :: rest =>
    if rest = [] then none
    else (parseDigits rest 0).bind (fun n => intRange (-(Int.ofNat n)))
  | l => (parseDigits l 0).bind (fun n => intRange (Int.ofNat n))

/-- The absolute result-count ceiling. -/
def ABSMAX : Int := 1000

/-- The query string of a `GET /iterate` request.  `start` and `end` are
converted to byte slices by the handler; the remaining parameters stay the
raw strings the handler compares against `"yes"` / `"no"`. -/
structure IterQuery where
  start : Bytes
  stop : Bytes
  maxs : String
  include_start : String
  include_end : String
  forward : String
  include_values : String

/-- One element of the response `data` array: a `{"key","value"}` object,
or a bare key when `include_values=no`. -/
inductive Entry
  | keyOnly (k : Bytes)
  | keyVal (k v : Bytes)
  deriving DecidableEq

/-- The observable response of the `/iterate` handler. -/
inductive IterResponse
  | fail (status : Nat)
  | ok (more : Bool) (data : List Entry)
  deriving DecidableEq

/-- HTTP status of a response (a 200 carries the JSON body). -/
def IterResponse.statusCode : IterResponse → Nat
  | .fail c => c
  | .ok _ _ => 200

/-- The parse of the `max` query parameter: missing means `ABSMAX`,
otherwise `strconv.Atoi`. -/
def parseMax (maxs : String) : Option Int :=
  if maxs = "" then some ABSMAX else atoi maxs

/-- The `GET /iterate` handler: parse `max` (a parse error hits `failErr`,
which writes HTTP 500); clamp it to `ABSMAX`; decode the flag parameters;
then run `iterateN` (no `end` bound) or `iterateUntil` and return the JSON
`{"more", "data"}` payload. -/
def handleIterate (s : Store) (q : IterQuery) : IterResponse :=
  match parseMax q.maxs with
  | none => .fail 500
  | some m0 =>
    let m := if m0 > ABSMAX then ABSMAX else m0
    let ignore_start := q.include_start = "no"
    let include_end := q.include_end = "yes"
    let backwards := q.forward = "no"
    let skip_values := q.include_values = "no"
    let entry : Rec → Entry := fun r =>
      if skip_values then .keyOnly r.1 else .keyVal r.1 r.2
    if q.stop = [] then
      .ok false ((iterateN s q.start m (!ignore_start) backwards).map entry)
    else
      let p := iterateUntil s q.start q.stop m (!ignore_start) include_end backwards
      .ok p.1 (p.2.map entry)

/-! ## Helper lemmas -/

theorem byteCompare_self (a : Bytes) : byteCompare a a = .eq := by
  induction a with
  | nil => rfl
  | cons x xs ih => simp [byteCompare, ih]

theorem byteCompare_eq_iff {a b : Bytes} : byteCompare a b = .eq ↔ a = b := by
  constructor
  · intro h
    induction a generalizing b with
    | nil => cases b with
      | nil => rfl
      | cons y ys => simp [byteCompare] at h
    | cons x xs ih =>
      cases b with
      | nil => simp [byteCompare] at h
      | cons y ys =>
        by_cases hxy : x < y
        · simp [byteCompare, hxy] at h
        · by_cases hyx : y < x
          · simp [byteCompare, hxy, hyx] at h
          · have hx : x = y := Nat.le_antisymm (Nat.le_of_not_lt hyx) (Nat.le_of_not_lt hxy)
            simp [byteCompare, hxy, hyx] at h
            simp [hx, ih h]
  · intro h; subst h; exact byteCompare_self a

theorem byteCompare_lt_iff_gt {a b : Bytes} :
    byteCompare a b = .lt ↔ byteCompare b a = .gt := by
  induction a generalizing b with
  | nil => cases b <;> simp [byteCompare]
  | cons x xs ih =>
    cases b with
    | nil => simp [byteCompare]
    | cons y ys =>
      by_cases hxy : x < y
      · have hyx : ¬ y < x := Nat.lt_asymm hxy
        simp [byteCompare, hxy, hyx]
      · by_cases hyx : y < x
        · simp [byteCompare, hxy, hyx]
        · simp [byteCompare, hxy, hyx, ih]

theorem byteCompare_trans {a b c : Bytes}
    (hab : byteCompare a b = .lt) (hbc : byteCompare b c = .lt) :
    byteCompare a c = .lt := by
  induction a generalizing b c with
  | nil =>
    cases b with
    | nil => simp [byteCompare] at hab
    | cons y ys =>
      cases c with
      | nil => simp [byteCompare] at hbc
      | cons z zs => simp [byteCompare]
  | cons x xs ih =>
    cases b with
    | nil => simp [byteCompare] at hab
    | cons y ys =>
      cases c with
      | nil => simp [byteCompare] at hbc
      | cons z zs =>
        by_cases hxy : x < y
        · -- x < y, and y ≤ z in every surviving case, so x < z
          by_cases hyz : y < z
          · have : x < z := Nat.lt_trans hxy hyz
            simp [byteCompare, this]
          · by_cases hzy : z < y
            · simp [byteCompare, hyz, hzy] at hbc
            · have hyz' : y = z := Nat.le_antisymm (Nat.le_of_not_lt hzy) (Nat.le_of_not_lt hyz)
              subst hyz'
              simp [byteCompare, hxy]
        · by_cases hyx : y < x
          · simp [byteCompare, hxy, hyx] at hab
          · have hxy' : x = y := Nat.le_antisymm (Nat.le_of_not_lt hyx) (Nat.le_of_not_lt hxy)
            subst hxy'
            by_cases hyz : x < z
            · simp [byteCompare, hyz]
            · by_cases hzy : z < x
              · simp [byteCompare, hyz, hzy] at hbc
              · have : x = z := Nat.le_antisymm (Nat.le_of_not_lt hzy) (Nat.le_of_not_lt hyz)
                subst this
                simp [byteCompare, hxy] at hab ⊢
                simp [byteCompare, hyz, hzy] at hbc
                exact ih hab hbc

theorem byteCompare_ne_lt_ne_eq {a b : Bytes}
    (h1 : byteCompare a b ≠ .lt) (h2 : byteCompare a b ≠ .eq) :
    byteCompare a b = .gt := by
  cases h : byteCompare a b with
  | lt => exact absurd h h1
  | eq => exact absurd h h2
  | gt => rfl


theorem buildBatch_bad {ops : List BatchOp}
    (h : ∃ o ∈ ops, o.op ≠ "put" ∧ o.op ≠ "delete") :
    ∀ acc, buildBatch ops acc = none := by
  induction ops with
  | nil => simp at h
  | cons o rest ih =>
    intro acc
    rcases h with ⟨o', ho', hbad⟩
    rcases List.mem_cons.mp ho' with h1 | h1
    · subst h1
      simp [buildBatch, hbad.1, hbad.2]
    · by_cases hp : o.op = "put"
      · simpa [buildBatch, hp] using ih ⟨o', h1, hbad⟩ _
      · by_cases hd : o.op = "delete"
        · simpa [buildBatch, hp, hd] using ih ⟨o', h1, hbad⟩ _
        · simp [buildBatch, hp, hd]


theorem putAll_append (dest : Store) (a b : List Rec) :
    putAll dest (a ++ b) = putAll (putAll dest a) b :=
  List.foldl_append ..


/-- If a `snapLoop` run succeeds, the destination holds exactly the pending
write-batch plus all remaining source records, applied to the destination
so far. The side condition `i % 1000 = 0 → wb = []` is the loop invariant
relating the record counter and the pending batch. -/
theorem snapLoop_eq_putAll (commitFails : Nat → Bool) :
    ∀ (l : List Rec) (i ci : Nat) (wb : List Rec) (dest d : Store),
      (i % 1000 = 0 → wb = []) →
      snapLoop commitFails l i ci wb dest = some d →
      d = putAll dest (wb ++ l) := by
  intro l
  induction l with
  | nil =>
    intro i ci wb dest d hinv h
    by_cases hi : i % 1000 = 0
    · have hwb := hinv hi
      subst hwb
      simp [snapLoop, hi] at h
      simp [← h, putAll]
    · simp [snapLoop, hi] at h
      rcases h with ⟨hcf, h⟩
      simp [← h]
  | cons r rest ih =>
    intro i ci wb dest d hinv h
    by_cases hi : (i + 1) % 1000 = 0
    · simp only [snapLoop, hi, if_pos] at h
      by_cases hcf : commitFails ci
      · simp [hcf] at h
      · simp [hcf] at h
        have := ih (i + 1) (ci + 1) [] (putAll dest (wb ++ [r])) d (fun _ => rfl) h
        rw [this]
        rw [← putAll_append]
        simp
    · simp only [snapLoop, hi, if_neg] at h
      simp at h
      have := ih (i + 1) ci (wb ++ [r]) dest d (fun hx => absurd hx hi) h
      rw [this]
      simp


/-- Inserting a key greater than every key of the store appends at the end. -/
theorem storePut_gt {s : Store} {k : Bytes} (v : Bytes)
    (h : ∀ r ∈ s, byteCompare r.1 k = .lt) :
    storePut s k v = s ++ [(k, v)] := by
  induction s with
  | nil => rfl
  | cons r rest ih =>
    have hr : byteCompare r.1 k = .lt := h r (List.mem_cons_self ..)
    have hk : byteCompare k r.1 = .gt := byteCompare_lt_iff_gt.mp hr
    cases r with
    | mk k' v' =>
      simp only [storePut, hk]
      rw [ih (fun x hx => h x (List.mem_cons_of_mem _ hx))]
      simp

/-- Replaying a strictly sorted record list into a store that sits entirely
below it reproduces the concatenation: the store round-trips. -/
theorem putAll_of_sorted :
    ∀ (l pre : Store), SortedStore (pre ++ l) → putAll pre l = pre ++ l := by
  intro l
  induction l with
  | nil => intro pre _; simp [putAll]
  | cons r rest ih =>
    intro pre hs
    have hlt : ∀ x ∈ pre, byteCompare x.1 r.1 = .lt := by
      intro x hx
      have := (List.pairwise_append.mp hs).2.2 x hx r (List.mem_cons_self ..)
      exact this
    have hstep : storePut pre r.1 r.2 = pre ++ [r] := storePut_gt r.2 hlt
    have : putAll pre (r :: rest) = putAll (pre ++ [r]) rest := by
      simp [putAll, hstep]
    rw [this, ih (pre ++ [r]) (by simpa using hs)]
    simp

theorem seekIdx_le_length (s : Store) (k : Bytes) : seekIdx s k ≤ s.length := by
  induction s with
  | nil => simp [seekIdx]
  | cons r rest ih =>
    by_cases h : byteCompare r.1 k = .lt
    · simpa [seekIdx, h] using ih
    · simp [seekIdx, h]

theorem mem_take_seekIdx_lt {s : Store} {k : Bytes} :
    ∀ r ∈ s.take (seekIdx s k), byteCompare r.1 k = .lt := by
  induction s with
  | nil => simp [seekIdx]
  | cons r rest ih =>
    by_cases h : byteCompare r.1 k = .lt
    · simp only [seekIdx, h, if_pos, List.take_succ_cons]
      intro x hx
      rcases List.mem_cons.mp hx with h1 | h1
      · subst h1; exact h
      · exact ih x h1
    · simp [seekIdx, h]

theorem seekIdx_all_lt {s : Store} {k : Bytes}
    (h : ∀ r ∈ s, byteCompare r.1 k = .lt) : seekIdx s k = s.length := by
  induction s with
  | nil => rfl
  | cons r rest ih =>
    have hr := h r (List.mem_cons_self ..)
    simp only [seekIdx, hr, if_pos, List.length_cons]
    exact congrArg (· + 1) (ih fun x hx => h x (List.mem_cons_of_mem _ hx))

theorem seekIdx_lt_of_exists {s : Store} {k : Bytes}
    (h : ∃ r ∈ s, byteCompare r.1 k ≠ .lt) : seekIdx s k < s.length := by
  induction s with
  | nil => simp at h
  | cons r rest ih =>
    by_cases hlt : byteCompare r.1 k = .lt
    · rcases h with ⟨x, hx, hxk⟩
      rcases List.mem_cons.mp hx with h1 | h1
      · subst h1; exact absurd hlt hxk
      · have := ih ⟨x, h1, hxk⟩
        simpa [seekIdx, hlt] using this
    · simp [seekIdx, hlt]

theorem keyAt_seekIdx_not_lt {s : Store} {k : Bytes}
    (h : seekIdx s k < s.length) : byteCompare (keyAt s (seekIdx s k)) k ≠ .lt := by
  induction s with
  | nil => simp [seekIdx] at h
  | cons r rest ih =>
    by_cases hlt : byteCompare r.1 k = .lt
    · have h' : seekIdx rest k < rest.length := by
        simpa [seekIdx, hlt] using h
      simpa [seekIdx, hlt, keyAt] using ih h'
    · simp [seekIdx, hlt, keyAt]

theorem filter_lt_eq_take_seekIdx {s : Store} (hs : SortedStore s) (k : Bytes) :
    s.filter (fun r => decide (byteCompare r.1 k = Ordering.lt))
      = s.take (seekIdx s k) := by
  induction s with
  | nil => rfl
  | cons r rest ih =>
    rcases List.pairwise_cons.mp hs with ⟨hr, hrest⟩
    by_cases hlt : byteCompare r.1 k = .lt
    · simp [List.filter_cons, seekIdx, hlt, ih hrest]
    · have hnone : ∀ x ∈ rest, ¬(byteCompare x.1 k = .lt) := fun x hx hxk =>
        hlt (byteCompare_trans (hr x hx) hxk)
      have hnil : List.filter (fun r => decide (byteCompare r.1 k = Ordering.lt)) rest = [] :=
        List.filter_eq_nil_iff.mpr (fun x hx => by simpa using hnone x hx)
      simp [List.filter_cons, seekIdx, hlt, hnil]

theorem reverse_take_head {s : Store} {i : Nat} (h : i < s.length) :
    ((s.take (i + 1)).reverse).head? = s[i]? := by
  induction s generalizing i with
  | nil => simp at h
  | cons r rest ih =>
    cases i with
    | zero => simp
    | succ n =>
      have hn : n < rest.length := by simpa using h
      have hih := ih hn
      simp only [List.take_succ_cons, List.reverse_cons]
      cases hrev : ((rest.take (n + 1)).reverse) with
      | nil =>
        exfalso
        have hlen : (rest.take (n + 1)).length = 0 := by
          have := congrArg List.length hrev
          simpa using this
        rw [List.length_take] at hlen
        omega
      | cons a t =>
        rw [hrev] at hih
        simp only [List.head?_cons] at hih
        simp [hih]

/-- With an inclusive start the first-record suppression never fires. -/
theorem scanSeq_include_start (s : Store) (start : Bytes) (bwd : Bool) :
    scanSeq s start true bwd = cursorSeq s start true bwd := by
  unfold scanSeq
  cases cursorSeq s start true bwd with
  | nil => rfl
  | cons r rest => simp

theorem nLoop_length (maxc : Int) :
    ∀ (l : List Rec) (i : Int), (nLoop maxc l i).length ≤ (maxc - i).toNat := by
  intro l
  induction l with
  | nil => intro i; simp [nLoop]
  | cons r rest ih =>
    intro i
    by_cases h : i ≥ maxc
    · simp [nLoop, h]
    · have := ih (i + 1)
      simp only [nLoop, if_neg h, List.length_cons]
      omega

theorem untilLoop_length (e : Bytes) (maxc : Int) (ie bwd : Bool) :
    ∀ (l : List Rec) (i : Int),
      (untilLoop e maxc ie bwd l i).2.length ≤ (maxc - i).toNat := by
  intro l
  induction l with
  | nil => intro i; simp [untilLoop]
  | cons r rest ih =>
    intro i
    cases r with
    | mk k v =>
      by_cases h : i ≥ maxc
      · simp [untilLoop, h]
      · by_cases h1 : (oob e ie bwd k).1 = false
        · simp [untilLoop, h, h1]
        · by_cases h2 : (oob e ie bwd k).2 = false
          · simp only [untilLoop, if_neg h, if_pos h1, if_pos h2, List.length_cons]
            simp [h1, h2]
            omega
          · have := ih (i + 1)
            simp only [untilLoop, if_neg h, if_neg h1, if_neg h2, List.length_cons]
            omega

/-- Full characterization of the `more` flag computed by `untilLoop`:
`more` comes out `true` exactly when the first `maxc - i` candidates were
all emitted and kept scanning (in range and not the inclusive end), and the
next candidate exists and is still within range of the end bound. -/
theorem untilLoop_more_iff (e : Bytes) (maxc : Int) (ie bwd : Bool) :
    ∀ (l : List Rec) (i : Int),
      (untilLoop e maxc ie bwd l i).1 = true ↔
        ((∃ r, l[(maxc - i).toNat]? = some r ∧ (oob e ie bwd r.1).1 = true) ∧
          ∀ x ∈ l.take (maxc - i).toNat,
            (oob e ie bwd x.1).1 = true ∧ (oob e ie bwd x.1).2 = true) := by
  intro l
  induction l with
  | nil =>
    intro i
    simp [untilLoop]
  | cons r rest ih =>
    intro i
    cases r with
    | mk k v =>
      by_cases h : i ≥ maxc
      · have h0 : (maxc - i).toNat = 0 := by omega
        simp [untilLoop, h, h0]
      · have hsucc : (maxc - i).toNat = (maxc - (i + 1)).toNat + 1 := by omega
        by_cases h1 : (oob e ie bwd k).1 = false
        · simp only [untilLoop, if_neg h, if_pos h1, hsucc]
          simp [h1]
        · by_cases h2 : (oob e ie bwd k).2 = false
          · simp only [untilLoop, if_neg h, if_neg h1, if_pos h2, hsucc]
            simp [h2]
          · simp only [untilLoop, if_neg h, if_neg h1, if_neg h2, hsucc]
            rw [ih (i + 1)]
            simp only [List.getElem?_cons_succ, List.take_succ_cons, List.mem_cons]
            constructor
            · rintro ⟨hex, hall⟩
              refine ⟨hex, ?_⟩
              intro x hx
              rcases hx with hx | hx
              · subst hx
                exact ⟨by simpa using h1, by simpa using h2⟩
              · exact hall x hx
            · rintro ⟨hex, hall⟩
              exact ⟨hex, fun x hx => hall x (Or.inr hx)⟩

/-- Shared inversion on a 200 response of the `/iterate` handler: the data
length respects the clamped count, and without an `end` bound `more` is the
literal `false` the handler assigns. -/
theorem handleIterate_ok_inv (s : Store) (q : IterQuery) (m0 : Int)
    (mo : Bool) (d : List Entry)
    (hm : parseMax q.maxs = some m0) (h : handleIterate s q = .ok mo d) :
    (d.length : Int) ≤ max 0 (min m0 ABSMAX) ∧ (q.stop = [] → mo = false) := by
  have hmeq : (if m0 > ABSMAX then ABSMAX else m0) = min m0 ABSMAX := by
    by_cases hg : m0 > ABSMAX
    · simp only [if_pos hg]
      omega
    · simp only [if_neg hg]
      omega
  simp only [handleIterate, hm, hmeq] at h
  by_cases hstop : q.stop = []
  · simp only [hstop, if_true] at h
    rw [IterResponse.ok.injEq] at h
    rcases h with ⟨hmo, hd⟩
    have hb := nLoop_length (min m0 ABSMAX)
      (scanSeq s q.start (!(q.include_start = "no")) (q.forward = "no")) 0
    rw [← hd]
    simp only [List.length_map]
    unfold iterateN
    constructor
    · omega
    · intro _; exact hmo.symm
  · simp only [if_neg hstop] at h
    rw [IterResponse.ok.injEq] at h
    rcases h with ⟨hmo, hd⟩
    have hb := untilLoop_length q.stop (min m0 ABSMAX) (q.include_end = "yes")
      (q.forward = "no")
      (scanSeq s q.start (!(q.include_start = "no")) (q.forward = "no")) 0
    rw [← hd]
    simp only [List.length_map]
    unfold iterateUntil
    constructor
    · omega
    · intro hc; exact absurd hc hstop

/-! ## Claim theorems -/

/-- C1: for every bounded scan, `more` is `true` exactly when: the first
`maxCount` candidate records handed over by the cursor were all emitted and
kept scanning (each in range of `end` and not the inclusive end bound, so
the count cap was genuinely reached), and the next candidate exists and is
itself still within range of `end` (`(oob ...).1`, i.e. strictly before
`end` in the scan direction or equal to an inclusive `end`).  In
particular, when iteration stops because a candidate key is judged
out-of-range of `end`, `more` stays `false` regardless of the cap. -/
theorem iterateUntil_more_characterization (s : Store) (start e : Bytes)
    (maxc : Int) (is ie bwd : Bool) :
    (iterateUntil s start e maxc is ie bwd).1 = true ↔
      ((∃ r, (scanSeq s start is bwd)[maxc.toNat]? = some r ∧
          (oob e ie bwd r.1).1 = true) ∧
        ∀ x ∈ (scanSeq s start is bwd).take maxc.toNat,
          (oob e ie bwd x.1).1 = true ∧ (oob e ie bwd x.1).2 = true) := by
  have := untilLoop_more_iff e maxc ie bwd (scanSeq s start is bwd) 0
  simpa using this

/-- C2: a batch containing an operation whose kind is neither `"put"` nor
`"delete"` fails with the bad-batch error and leaves the store completely
unchanged, for every prior store contents — including the effects of valid
operations that precede the bad one in the list. -/
theorem applyBatch_bad_kind (s : Store) (ops : List BatchOp)
    (h : ∃ o ∈ ops, o.op ≠ "put" ∧ o.op ≠ "delete") :
    applyBatch s ops = (s, false) := by
  unfold applyBatch
  rw [buildBatch_bad h]

/-- Witness for C2: a valid put preceding an unrecognized op kind; the
store is returned untouched together with the bad-batch error. -/
theorem applyBatch_bad_kind_witness :
    applyBatch [([97], [65])]
        [⟨"put", [107], [118]⟩, ⟨"frob", [108], []⟩]
      = ([([97], [65])], false) :=
  applyBatch_bad_kind _ _ ⟨⟨"frob", [108], []⟩, by decide⟩

/-- C3: whenever snapshot export returns an error — the destination path
already holds a store, or a batch-commit failure occurs mid-export — the
world is exactly as before: the source store is unmodified and the
destination holds no new (partial) store, the partially-written store
having been destroyed on the failure path. -/
theorem makeSnap_error_preserves_world (w : SnapWorld) (cf : Nat → Bool)
    (h : (makeSnap w cf).2 = false) : (makeSnap w cf).1 = w := by
  unfold makeSnap at h ⊢
  cases hw : w.dest with
  | some d => simp [hw]
  | none =>
    cases hl : snapLoop cf w.src 0 0 [] [] with
    | none =>
      simp only [hw, hl]
      cases w with
      | mk src dest => simp_all
    | some d => simp [hw, hl] at h

/-- Witness for C3: a one-record source whose final partial-batch commit
fails; the destination store is destroyed and the world is unchanged. -/
theorem makeSnap_error_preserves_world_witness :
    (makeSnap ⟨[([97], [65])], none⟩ (fun _ => true)).1
      = ⟨[([97], [65])], none⟩ :=
  makeSnap_error_preserves_world _ _ rfl

/-- C7: a successful snapshot export leaves at the destination a store
byte-identical to the source at export time, record for record over the
entire key space, and the source itself is unmodified. -/
theorem makeSnap_roundtrip (w : SnapWorld) (cf : Nat → Bool)
    (hs : SortedStore w.src) (h : (makeSnap w cf).2 = true) :
    (makeSnap w cf).1 = ⟨w.src, some w.src⟩ := by
  unfold makeSnap at h ⊢
  cases hw : w.dest with
  | some d => simp [hw] at h
  | none =>
    cases hl : snapLoop cf w.src 0 0 [] [] with
    | none => simp [hw, hl] at h
    | some d =>
      have hd : d = putAll [] ([] ++ w.src) :=
        snapLoop_eq_putAll cf w.src 0 0 [] [] d (fun _ => rfl) hl
      have : d = w.src := by
        rw [hd]
        simpa using putAll_of_sorted w.src [] (by simpa using hs)
      simp [hw, hl, this]

/-- Witness for C7: exporting a two-record store with no commit failures
reproduces the source exactly at the destination. -/
theorem makeSnap_roundtrip_witness :
    (makeSnap ⟨[([97], [65]), ([98], [66])], none⟩ (fun _ => false)).1
      = ⟨[([97], [65]), ([98], [66])], some [([97], [65]), ([98], [66])]⟩ :=
  makeSnap_roundtrip _ _ (by decide) rfl

/-- C5 (counterexample): the claimed bound `len(data) ≤ min(requested max,
1000)` fails as stated: `strconv.Atoi` accepts a negative `max` such as
`-1`, the handler then returns zero records with status 200, and
`0 ≤ min(-1, 1000)` is false. -/
theorem handleIterate_min_bound_counterexample :
    parseMax "-1" = some (-1) ∧
      handleIterate [] ⟨[], [], "-1", "", "", "", ""⟩ = .ok false [] ∧
      ¬ ((0 : Int) ≤ min (-1) ABSMAX) := by
  refine ⟨by decide, by decide, by decide⟩

/-- C5 (amended): for all scan requests and store contents, the returned
data length is at most `max 0 (min (requested max) 1000)`: a requested max
above the absolute ceiling 1000 is clamped down to 1000 before scanning, a
negative one yields no records, and the scan never emits more than the
clamped count. -/
theorem handleIterate_data_clamped (s : Store) (q : IterQuery) (m0 : Int)
    (mo : Bool) (d : List Entry)
    (hm : parseMax q.maxs = some m0) (h : handleIterate s q = .ok mo d) :
    (d.length : Int) ≤ max 0 (min m0 ABSMAX) :=
  (handleIterate_ok_inv s q m0 mo d hm h).1

/-- Witness for C5 (amended): requesting `max=2000` over a one-record
store returns that single record, within the clamped bound. -/
theorem handleIterate_data_clamped_witness :
    ((([Entry.keyVal [97] [65]] : List Entry).length : Int)
        ≤ max 0 (min 2000 ABSMAX)) :=
  handleIterate_data_clamped [([97], [65])] ⟨[], [], "2000", "", "", "", ""⟩
    2000 false [Entry.keyVal [97] [65]] (by decide) (by decide)

/-- C6: for every scan with no `end` bound, over all store contents,
directions and start bounds, the handler returns `more = false` and at most
the clamped `maxCount` records. -/
theorem handleIterate_no_end (s : Store) (q : IterQuery) (m0 : Int)
    (mo : Bool) (d : List Entry)
    (hend : q.stop = []) (hm : parseMax q.maxs = some m0)
    (h : handleIterate s q = .ok mo d) :
    mo = false ∧ (d.length : Int) ≤ max 0 (min m0 ABSMAX) :=
  ⟨(handleIterate_ok_inv s q m0 mo d hm h).2 hend,
    (handleIterate_ok_inv s q m0 mo d hm h).1⟩

/-- Witness for C6: a backward open-ended scan over two records with
`max=1` yields one record and `more = false`. -/
theorem handleIterate_no_end_witness :
    (false : Bool) = false ∧
      ((([Entry.keyVal [98] [66]] : List Entry).length : Int)
        ≤ max 0 (min 1 ABSMAX)) :=
  handleIterate_no_end [([97], [65]), ([98], [66])]
    ⟨[], [], "1", "", "", "no", ""⟩ 1 false [Entry.keyVal [98] [66]]
    (by decide) (by decide) (by decide)

/-- C8 (counterexample): a `GET /iterate` request whose `max` parameter is
not a valid integer is answered with HTTP status 500 (`failErr`), not the
claimed 400. -/
theorem handleIterate_bad_max_counterexample :
    (handleIterate [([97], [65])] ⟨[], [], "12x", "", "", "", ""⟩).statusCode
        = 500 ∧ ¬ ((500 : Nat) = 400) := by
  refine ⟨by decide, by decide⟩

/-- C8 (amended): for every `GET /iterate` request whose `max` query
parameter is present but not a valid integer, the handler fails with HTTP
status 500 before touching the store (the response is independent of the
store contents, and nothing is written). -/
theorem handleIterate_bad_max (s s' : Store) (q : IterQuery)
    (hne : q.maxs ≠ "") (hbad : atoi q.maxs = none) :
    handleIterate s q = .fail 500 ∧ handleIterate s q = handleIterate s' q := by
  have hp : parseMax q.maxs = none := by simp [parseMax, hne, hbad]
  constructor <;> simp [handleIterate, hp]

/-- Witness for C8 (amended): `max=abc` yields a 500 response that does not
depend on the store. -/
theorem handleIterate_bad_max_witness :
    handleIterate [([97], [65])] ⟨[], [], "abc", "", "", "", ""⟩ = .fail 500 ∧
      handleIterate [([97], [65])] ⟨[], [], "abc", "", "", "", ""⟩
        = handleIterate [] ⟨[], [], "abc", "", "", "", ""⟩ :=
  handleIterate_bad_max _ _ _ (by decide) (by decide)

/-- C10: snapshot-exporting an empty source store succeeds for every
commit-failure behaviour of the engine — so no write-batch commit is ever
issued (the final partial-batch commit is skipped because `0` is a multiple
of 1000) — and a fresh empty store is left at the destination. -/
theorem makeSnap_empty_source (cf : Nat → Bool) :
    makeSnap ⟨[], none⟩ cf = (⟨[], some []⟩, true) := rfl

/-- C4: for every backward scan with a non-empty start key, the
forward-biased seek is corrected before iteration begins: if no stored key
is `≥ start`, the cursor is repositioned to the overall last key (the
visited sequence is the whole store reversed); and if the start bound is
exclusive and the positioned key is not byte-equal to `start` (i.e.
`start` is absent), the cursor steps exactly one position back, so the
visited sequence is exactly the records with key strictly below `start`,
reversed. -/
theorem backward_seek_correction (s : Store) (start : Bytes) (is : Bool)
    (hs : SortedStore s) (hne : start ≠ []) :
    ((∀ r ∈ s, byteCompare r.1 start = .lt) →
        cursorSeq s start is true = s.reverse) ∧
      (start ∉ s.map Prod.fst →
        cursorSeq s start false true
          = (s.filter (fun r => decide (byteCompare r.1 start = Ordering.lt))).reverse) := by
  constructor
  · intro hall
    have hseek : seekIdx s start = s.length := seekIdx_all_lt hall
    have hpos : cursorPos s start is true
        = if s.isEmpty then none else some (s.length - 1) := by
      simp only [cursorPos, if_neg hne, hseek, if_pos rfl, if_pos trivial]
    cases s with
    | nil => simp [cursorSeq, hpos]
    | cons r rest =>
      simp only [cursorSeq, hpos, List.isEmpty_cons, Bool.false_eq_true,
        if_false, List.length_cons, Nat.add_sub_cancel, if_true]
      simp
  · intro habs
    by_cases hfull : seekIdx s start = s.length
    · have hall : s.filter (fun r => decide (byteCompare r.1 start = Ordering.lt)) = s := by
        rw [filter_lt_eq_take_seekIdx hs, hfull, List.take_length]
      rw [hall]
      have hpos : cursorPos s start false true
          = if s.isEmpty then none else some (s.length - 1) := by
        simp only [cursorPos, if_neg hne, hfull, if_pos rfl, if_pos trivial]
      cases s with
      | nil => simp [cursorSeq, hpos]
      | cons r rest =>
        simp only [cursorSeq, hpos, List.isEmpty_cons, Bool.false_eq_true,
          if_false, List.length_cons, Nat.add_sub_cancel, if_true]
        simp
    · have hlt : seekIdx s start < s.length :=
        Nat.lt_of_le_of_ne (seekIdx_le_length s start) hfull
      have hkey : keyAt s (seekIdx s start) ≠ start := by
        intro hk
        apply habs
        rw [← hk]
        unfold keyAt
        rw [List.getD_eq_getElem _ _ hlt]
        exact List.mem_map_of_mem Prod.fst (List.getElem_mem hlt)
      have hpos : cursorPos s start false true
          = if seekIdx s start = 0 then none else some (seekIdx s start - 1) := by
        simp only [cursorPos, if_neg hne, if_neg hfull]
        rw [if_pos trivial, if_pos ⟨trivial, hkey⟩]
      rw [filter_lt_eq_take_seekIdx hs]
      by_cases h0 : seekIdx s start = 0
      · simp [cursorSeq, hpos, h0]
      · have harith : seekIdx s start - 1 + 1 = seekIdx s start := by omega
        simp only [cursorSeq, hpos, if_neg h0, if_true, harith]

/-- Witness for C4: over the sorted store `{a, c}`: with start key `d`
(every stored key below it and absent), a backward exclusive scan visits
the whole store reversed; with the absent middle key `b`, a backward
exclusive scan visits only the records below `b`, reversed. -/
theorem backward_seek_correction_witness :
    (cursorSeq [([97], [65]), ([99], [67])] [100] false true
        = [([97], [65]), ([99], [67])].reverse) ∧
      (cursorSeq [([97], [65]), ([99], [67])] [98] false true
        = ([([97], [65]), ([99], [67])].filter
            (fun r => decide (byteCompare r.1 [98] = Ordering.lt))).reverse) :=
  ⟨(backward_seek_correction [([97], [65]), ([99], [67])] [100] false
      (by decide) (by decide)).1 (by decide),
    (backward_seek_correction [([97], [65]), ([99], [67])] [98] false
      (by decide) (by decide)).2 (by decide)⟩

/-- C9: a backward scan with an inclusive, non-empty start key that is
absent from the store, while some stored key exceeds it, yields as its
first record the smallest stored key strictly greater than `start` — the
corrective step-back is performed only for exclusive bounds, so a backward
scan can yield a key greater than its start bound. -/
theorem backward_inclusive_absent_start (s : Store) (start : Bytes)
    (_hs : SortedStore s) (hne : start ≠ []) (habs : start ∉ s.map Prod.fst)
    (hex : ∃ r ∈ s, byteCompare start r.1 = .lt) :
    (scanSeq s start true true).head?
        = (s.filter (fun r => decide (byteCompare start r.1 = Ordering.lt))).head? ∧
      ∀ r, (scanSeq s start true true).head? = some r →
        byteCompare start r.1 = .lt := by
  have hlt : seekIdx s start < s.length := by
    apply seekIdx_lt_of_exists
    rcases hex with ⟨r, hr, hrs⟩
    refine ⟨r, hr, ?_⟩
    rw [byteCompare_lt_iff_gt] at hrs
    simp [hrs]
  have hknot : byteCompare ((s.getD (seekIdx s start) ([], [])).1) start ≠ .lt :=
    keyAt_seekIdx_not_lt hlt
  rw [List.getD_eq_getElem _ _ hlt] at hknot
  have hkne : (s[seekIdx s start].1) ≠ start := by
    intro hk
    exact habs (hk ▸ List.mem_map_of_mem Prod.fst (List.getElem_mem hlt))
  have hkgt : byteCompare start (s[seekIdx s start].1) = .lt := by
    rw [byteCompare_lt_iff_gt]
    exact byteCompare_ne_lt_ne_eq hknot (fun he => hkne (byteCompare_eq_iff.mp he))
  have hpos : cursorPos s start true true = some (seekIdx s start) := by
    simp only [cursorPos, if_neg hne, if_neg (Nat.ne_of_lt hlt)]
    rw [if_pos trivial, if_neg (by simp)]
  have hseq : (scanSeq s start true true).head? = some (s[seekIdx s start]) := by
    rw [scanSeq_include_start]
    simp only [cursorSeq, hpos, if_true]
    exact (reverse_take_head hlt).trans (List.getElem?_eq_getElem hlt)
  have hfil : (s.filter (fun r => decide (byteCompare start r.1 = Ordering.lt))).head?
      = some (s[seekIdx s start]) := by
    conv_lhs => rw [← List.take_append_drop (seekIdx s start) s]
    rw [List.filter_append]
    have htake : (s.take (seekIdx s start)).filter
        (fun r => decide (byteCompare start r.1 = Ordering.lt)) = [] := by
      apply List.filter_eq_nil_iff.mpr
      intro x hx
      have hxlt : byteCompare x.1 start = .lt := mem_take_seekIdx_lt x hx
      rw [byteCompare_lt_iff_gt] at hxlt
      simp [hxlt]
    have hdrop : s.drop (seekIdx s start)
        = s[seekIdx s start] :: s.drop (seekIdx s start + 1) :=
      List.drop_eq_getElem_cons hlt
    rw [htake, hdrop, List.filter_cons_of_pos (by simpa using hkgt)]
    simp
  refine ⟨hseq.trans hfil.symm, ?_⟩
  intro r hr
  rw [hseq] at hr
  cases hr
  exact hkgt

/-- Witness for C9: in the store `{a, c}`, a backward scan with inclusive
absent start key `b` yields `c` first — a key greater than the start
bound. -/
theorem backward_inclusive_absent_start_witness :
    ((scanSeq [([97], [65]), ([99], [67])] [98] true true).head?
        = ([([97], [65]), ([99], [67])].filter
            (fun r => decide (byteCompare [98] r.1 = Ordering.lt))).head?) ∧
      ∀ r, (scanSeq [([97], [65]), ([99], [67])] [98] true true).head? = some r →
        byteCompare [98] r.1 = .lt :=
  backward_inclusive_absent_start [([97], [65]), ([99], [67])] [98]
    (by decide) (by decide) (by decide) ⟨([99], [67]), by decide⟩

end Ldbrest
